import Mathlib

/-!
Verification of the liberty timing-file generator
(`scripts/python-skywater-pdk/skywater_pdk/liberty.py`).

Python strings are modelled as `List Char` (`PyStr`); Python dicts (loaded
from JSON, hence with unique keys and insertion order preserved) are
modelled as association lists; Python floats are modelled by their
`json.dumps` rendering, which is the only thing `liberty_float` ever
inspects.  `TimingType` values (an `enum.IntFlag`) are modelled as the
underlying `Nat` bitmasks.
-/

set_option maxHeartbeats 1000000

abbrev PyStr := List Char

/-- Python `s[:-n]` for `n ≤ len(s)` (used as `name[:-len(suffix)]`). -/
def pyDropRight (l : PyStr) (n : Nat) : PyStr := l.take (l.length - n)

/-! ## TimingType (`class TimingType(enum.IntFlag)`) -/

/-- `basic = 1` -/
def TimingType.basic : Nat := 1

/-- `ccsnoise = 2 | basic` -/
def TimingType.ccsnoise : Nat := 2 ||| TimingType.basic

/-- `leakage = 4` -/
def TimingType.leakage : Nat := 4

/-- Python `t in self` for `IntFlag`: `t.value & self.value == t.value`. -/
def TimingType.mem (t v : Nat) : Bool := t &&& v == t

def sfxCcsnoise : PyStr := "_ccsnoise".data

def sfxPwrlkg : PyStr := "_pwrlkg".data

/-- `TimingType.parse`: strip a trailing `_ccsnoise` or `_pwrlkg` suffix,
returning the remaining name and the singular variant (default `basic`). -/
def TimingType.parse (name : PyStr) : PyStr × Nat :=
  if sfxCcsnoise <:+ name then
    (pyDropRight name sfxCcsnoise.length, TimingType.ccsnoise)
  else if sfxPwrlkg <:+ name then
    (pyDropRight name sfxPwrlkg.length, TimingType.leakage)
  else (name, TimingType.basic)

/-- The `TimingType.file` property: filename suffix of a variant value. -/
def TimingType.file (v : Nat) : PyStr :=
  if v = TimingType.ccsnoise then sfxCcsnoise
  else if v = TimingType.leakage then sfxPwrlkg
  else []

/-- The `TimingType.types` property: the declared members contained in the
value, with `basic` dropped whenever `ccsnoise` (which subsumes it) is
present. -/
def TimingType.types (v : Nat) : List Nat :=
  let tt := [TimingType.basic, TimingType.ccsnoise, TimingType.leakage].filter
    (fun t => TimingType.mem t v)
  if TimingType.ccsnoise ∈ tt then tt.erase TimingType.basic else tt

/-- The `TimingType.singular` property: exactly one member in `types`. -/
def TimingType.singular (v : Nat) : Bool := (TimingType.types v).length == 1

/-- The values a corner capability can take: nonempty unions of the three
declared members (`basic=1`, `ccsnoise=3`, `leakage=4`). -/
def TimingType.IsUnion (v : Nat) : Prop :=
  v ∈ [TimingType.basic, TimingType.ccsnoise, TimingType.leakage,
       TimingType.basic ||| TimingType.leakage,
       TimingType.ccsnoise ||| TimingType.leakage]

instance (v : Nat) : Decidable (TimingType.IsUnion v) := by
  unfold TimingType.IsUnion; infer_instance

/-! ## File naming (`cell_corner_file`, `top_corner_file`) -/

def extLibJson : PyStr := ".lib.json".data

def dunder : PyStr := "__".data

def timingDir : PyStr := "timing/".data

def cellsDir : PyStr := "cells/".data

def slashS : PyStr := "/".data

/-- `cell_corner_file`.  The `assert corner_type.singular` is modelled by
returning `none`.  Modelled from the spec: `sizes.parse_size` is code of
this repository outside the translated source file; following the spec
("a cell name possibly suffixed with a drive-strength size token") it is
abstracted as a parameter returning the size suffix when one is present
(Python `sz.suffix` of a truthy `sz`). -/
def cell_corner_file (parse_size : PyStr → Option PyStr)
    (lib cell_with_size corner : PyStr) (corner_type : Nat) : Option PyStr :=
  if TimingType.singular corner_type then
    let cell := match parse_size cell_with_size with
      | some sfx => pyDropRight cell_with_size sfx.length
      | none => cell_with_size
    some (cellsDir ++ cell ++ slashS ++ lib ++ dunder ++ cell_with_size ++
      dunder ++ corner ++ TimingType.file corner_type ++ extLibJson)
  else none

/-- `top_corner_file`.  The `assert corner_type.singular` is modelled by
returning `none`. -/
def top_corner_file (libname corner : PyStr) (corner_type : Nat) : Option PyStr :=
  if TimingType.singular corner_type then
    some (timingDir ++ libname ++ dunder ++ corner ++
      TimingType.file corner_type ++ extLibJson)
  else none

/-- Spec-side definition (for comparison with the code): the suffix mapping
stated by the spec, `basic → ""`, `ccsnoise → "_ccsnoise"`,
`leakage → "_pwrlkg"`, defined on singular values only. -/
def suffixSpec (v : Nat) : Option PyStr :=
  if v = TimingType.basic then some []
  else if v = TimingType.ccsnoise then some sfxCcsnoise
  else if v = TimingType.leakage then some sfxPwrlkg
  else none

/-- The input-variant selection of `main`: fails (`return 1`) when the
requested output variant is not contained in the corner capability union,
otherwise upgrades a `basic` request to `ccsnoise` input when the corner
has ccsnoise data. -/
def select_input (output_corner_type input_corner_type : Nat) : Option Nat :=
  if TimingType.mem output_corner_type input_corner_type then
    if output_corner_type = TimingType.basic ∧
        TimingType.mem TimingType.ccsnoise input_corner_type then
      some TimingType.ccsnoise
    else some output_corner_type
  else none

/-! ## Records (JSON data loaded into Python dicts) -/

/-- A JSON value as loaded by `json.load`: dicts keep insertion order and
have unique keys.  Numbers other than ints never reach the code verified
here, so a single numeric constructor suffices. -/
inductive JVal where
  | str : PyStr → JVal
  | num : Int → JVal
  | dict : List (PyStr × JVal) → JVal
  | list : List JVal → JVal

abbrev Record := List (PyStr × JVal)

/-- First value stored under key `k` (Python `data[k]` on a dict). -/
def lookupA (k : PyStr) : Record → Option JVal
  | [] => none
  | (k0, v) :: rest => if k0 = k then some v else lookupA k rest

/-- Python `k in data` for a dict. -/
def containsKey (k : PyStr) : Record → Bool
  | [] => false
  | (k0, _) :: rest => if k0 = k then true else containsKey k rest

def ccsnU : PyStr := "ccsn_".data

def pinPre : PyStr := "pin ".data

def ivKey : PyStr := "input_voltage".data

def timingKey : PyStr := "timing".data

/-- Inner loop of `remove_ccsnoise` over one timing entry `t`: delete every
key starting with `ccsn_`. -/
def stripCcsn : Record → Record
  | [] => []
  | (tk, v) :: rest =>
    if ccsnU <+: tk then stripCcsn rest else (tk, v) :: stripCcsn rest

/-- One element of a pin's `timing` list (a dict in well-formed data). -/
def stripElem : JVal → JVal
  | JVal.dict d => JVal.dict (stripCcsn d)
  | v => v

/-- The `pin_data["timing"]` loop of `remove_ccsnoise`. -/
def stripTiming : JVal → JVal
  | JVal.list ts => JVal.list (ts.map stripElem)
  | v => v

/-- Body of `remove_ccsnoise` for one pin dict: delete `input_voltage`,
delete every `ccsn_`-prefixed key, strip the `timing` entries. -/
def remove_pin : Record → Record
  | [] => []
  | (pk, v) :: rest =>
    if pk = ivKey ∨ ccsnU <+: pk then remove_pin rest
    else if pk = timingKey then (pk, stripTiming v) :: remove_pin rest
    else (pk, v) :: remove_pin rest

/-- `remove_ccsnoise` dispatch on a `pin `-keyed value (a dict in
well-formed data). -/
def applyPin : JVal → JVal
  | JVal.dict d => JVal.dict (remove_pin d)
  | v => v

/-- `remove_ccsnoise(data, cellname)`: the top-level loop deletes every key
containing `ccsn_` as a substring, and rewrites every `pin `-prefixed
entry through `remove_pin`. -/
def remove_ccsnoise : Record → Record
  | [] => []
  | (k, v) :: rest =>
    if ccsnU <:+: k then remove_ccsnoise rest
    else if pinPre <+: k then (k, applyPin v) :: remove_ccsnoise rest
    else (k, v) :: remove_ccsnoise rest

/-- The conditional stripping in `generate` (applied both to the merged
top-level record and to each cell record). -/
def generate_strip (ocorner_type : Nat) (data : Record) : Record :=
  if ocorner_type ≠ TimingType.ccsnoise then remove_ccsnoise data else data

/-! ## Merge of the corner top record over the common record (`generate`) -/

/-- Python `common_data[k] = v` on a dict: overwrite in place when the key
exists (position preserved), append otherwise. -/
def setKey (l : Record) (k : PyStr) (v : JVal) : Record :=
  if containsKey k l then l.map (fun e => if e.1 = k then (k, v) else e)
  else l ++ [(k, v)]

/-- The merge loop of `generate`: for every `(k, v)` of the corner top
record, report an overwrite when `k` is already present, then store `v`.
Returns the merged record and the reported overwrite keys. -/
def mergeLoop : Record → List PyStr → Record → Record × List PyStr
  | common, warns, [] => (common, warns)
  | common, warns, (k, v) :: rest =>
    mergeLoop (setKey common k v)
      (if containsKey k common then warns ++ [k] else warns) rest

def mergeRecords (common corner : Record) : Record × List PyStr :=
  mergeLoop common [] corner

/-! ## Numeric formatter (`liberty_float`) -/

/-- The reference value whose `str()` rendering fixes the width:
`WIDTH = len(str(0.0083333333))` (the float prints as itself). -/
def widthRef : PyStr := "0.0083333333".data

def WIDTH : Nat := widthRef.length

/-- The `while len(s) < w: s += '0'` padding loops. -/
def padZeros (s : PyStr) (w : Nat) : PyStr :=
  s ++ List.replicate (w - s.length) '0'

/-- `liberty_float`, acting on `s = json.dumps(f)` (floats are modelled by
their dumped rendering, the only thing the function inspects; a dumped
number contains at most one `e`, so `s.split('e')` is a split at the first
`e`). -/
def liberty_float (s : PyStr) : PyStr :=
  if 'e' ∈ s then
    let a := s.takeWhile (fun c => c != 'e')
    let b := (s.dropWhile (fun c => c != 'e')).tail
    let a := if '.' ∈ a then a else a ++ ['.']
    let a := a ++ List.replicate (WIDTH - (a.length + b.length + 1)) '0'
    a ++ 'e' :: b
  else if '.' ∈ s then padZeros s WIDTH
  else if s.length < WIDTH then padZeros (s ++ ['.']) WIDTH
  else s

/-! ## Attribute ordering (`LIBERTY_ATTRIBUTE_ORDER`,
`_lookup_attribute_pos`, `liberty_attribute_order`) -/

def LIBERTY_ATTRIBUTE_ORDER_RAW : String :=
  "\n" ++
  "library (name_string) \x7b\n" ++
  "    /* Library-Level Simple and Complex Attributes */\n" ++
  "    define (...,...,...) ;\n" ++
  "    technology (name_enum) ;\n" ++
  "    delay_model : \"model\" ;\n" ++
  "\n" ++
  "    bus_naming_style : \"string\" ;\n" ++
  "    date : \"date\" ;\n" ++
  "    comment : \"string\" ;\n" ++
  "\n" ++
  "    /* Unit definitions */\n" ++
  "    time_unit : \"unit\" ;\n" ++
  "    voltage_unit : \"unit\" ;\n" ++
  "    leakage_power_unit : \"unit\" ;\n" ++
  "    current_unit : \"unit\" ;\n" ++
  "    pulling_resistance_unit : \"unit\" ;\n" ++
  "    ..._unit : \"unit\" ;\n" ++
  "    /* FIXME: Should capacitive_load_unit always be last? */\n" ++
  "    capacitive_load_unit (value, unit) ;\n" ++
  "\n" ++
  "    /* FIXME: Why is define_cell_area here, while other defines are up above? */\n" ++
  "    define_cell_area (area_name, resource_type) ;\n" ++
  "\n" ++
  "    revision : float | string ;\n" ++
  "\n" ++
  "    /* Default Attributes and Values */\n" ++
  "    default_cell_leakage_power : float ;\n" ++
  "    default_fanout_load : float ;\n" ++
  "    default_inout_pin_cap : float ;\n" ++
  "    default_input_pin_cap : float ;\n" ++
  "    default_max_transition : float ;\n" ++
  "    default_output_pin_cap : float ;\n" ++
  "    default_... : ... ;\n" ++
  "\n" ++
  "    /* Scaling Factors Attributes and Values */\n" ++
  "    k_process_cell_fall ... ;\n" ++
  "    k_process_cell_rise ... ;\n" ++
  "    k_process_fall_propagation ... ;\n" ++
  "    k_process_fall_transition ... ;\n" ++
  "    k_process_rise_propagation ... ;\n" ++
  "    k_process_rise_transition ... ;\n" ++
  "    k_temp_cell_fall ... ;\n" ++
  "    k_temp_cell_rise ... ;\n" ++
  "    k_temp_fall_propagation ... ;\n" ++
  "    k_temp_fall_transition ... ;\n" ++
  "    k_temp_rise_propagation ... ;\n" ++
  "    k_temp_rise_transition ... ;\n" ++
  "    k_volt_cell_fall ... ;\n" ++
  "    k_volt_cell_rise ... ;\n" ++
  "    k_volt_fall_propagation ... ;\n" ++
  "    k_volt_fall_transition ... ;\n" ++
  "    k_volt_rise_propagation ... ;\n" ++
  "    k_volt_rise_transition ... ;\n" ++
  "    k_... : ... ;\n" ++
  "\n" ++
  "    /* Library-Level Group Statements */\n" ++
  "    operating_conditions (name_string) \x7b\n" ++
  "        ... operating conditions description ...\n" ++
  "    \x7d\n" ++
  "    wire_load (name_string) \x7b\n" ++
  "        ... wire load description ...\n" ++
  "    \x7d\n" ++
  "    wire_load_selection (name_string) \x7b\n" ++
  "        ... wire load selection criteria...\n" ++
  "    \x7d\n" ++
  "    power_lut_template (namestring)  \x7b\n" ++
  "        ... power lookup table template information...\n" ++
  "    \x7d\n" ++
  "    lu_table_template (name_string) \x7b\n" ++
  "        variable_1 : value_enum ;\n" ++
  "        variable_2 : value_enum ;\n" ++
  "        variable_3 : value_enum ;\n" ++
  "        index_1 (\"float, ..., float\");\n" ++
  "        index_2 (\"float, ..., float\");\n" ++
  "        index_3 (\"float, ..., float\");\n" ++
  "    \x7d\n" ++
  "    normalized_driver_waveform (waveform_template_name) \x7b\n" ++
  "        driver_waveform_name : string; /* Specifies the name of the driver waveform table */\n" ++
  "        index_1 (\"float, ... float\"); /* Specifies input net transition */\n" ++
  "        index_2 (\"float, ... float\"); /* Specifies normalized voltage */\n" ++
  "        values (\"float, ... float\", \\ /* Specifies the time in library units */\n" ++
  "            ... , \\\n" ++
  "            \"float, ... float\");\n" ++
  "    \x7d\n" ++
  "\n" ++
  "    /* Cell definitions */\n" ++
  "    cell (namestring2) \x7b\n" ++
  "        ... cell description ...\n" ++
  "    \x7d\n" ++
  "\n" ++
  "    ...\n" ++
  "\n" ++
  "    /* FIXME: What are these and why are they last */\n" ++
  "    type (namestring) \x7b\n" ++
  "        ... type description ...\n" ++
  "    \x7d\n" ++
  "    input_voltage (name_string) \x7b\n" ++
  "        ... input voltage information ...\n" ++
  "    \x7d\n" ++
  "    output_voltage (name_string) \x7b\n" ++
  "        ... output voltage information ...\n" ++
  "    \x7d\n" ++
  "\x7d\n"

/-- `re.sub('/\\*[^*]*\\*/', '', ...)`: delete each `/*...*/` block whose
body contains no `*`, scanning left to right; on a `/*` with no such
closing, advance one character.  Each removal consumes at least four
characters, so `s.length` steps of fuel always suffice. -/
def stripCommentsFuel : Nat → PyStr → PyStr
  | 0, s => s
  | _ + 1, [] => []
  | fuel + 1, '/' :: '*' :: rest =>
    match rest.dropWhile (fun x => x != '*') with
    | '*' :: '/' :: rest3 => stripCommentsFuel fuel rest3
    | _ => '/' :: stripCommentsFuel fuel ('*' :: rest)
  | fuel + 1, c :: rest => c :: stripCommentsFuel fuel rest

def stripComments (s : PyStr) : PyStr := stripCommentsFuel s.length s

def LIBERTY_ATTRIBUTE_ORDER : PyStr :=
  stripComments LIBERTY_ATTRIBUTE_ORDER_RAW.data

/-- Python `hay.find(needle)`: index of the first occurrence, `none` for
`-1`. -/
def strFind (hay needle : PyStr) : Option Nat :=
  if needle <+: hay then some 0
  else
    match hay with
    | [] => none
    | _ :: rest => (strFind rest needle).map (fun j => j + 1)

/-- `_lookup_attribute_pos`: pad with a leading space (and a trailing one
after a trailing underscore) to avoid substring matches, then `find`. -/
def lookup_attribute_pos (name : PyStr) : Option Nat :=
  let name := ' ' :: name
  let name := if ['_'] <:+ name then name ++ [' '] else name
  strFind LIBERTY_ATTRIBUTE_ORDER name

/-- The Python truthiness filter applied to the position (`if not i:` /
`if i:`): both `None` and `0.0` count as no position. -/
def truthy_lookup (name : PyStr) : Option Nat :=
  match lookup_attribute_pos name with
  | some i => if i = 0 then none else some i
  | none => none

/-- `RE_LIBERTY_LIST.match(attr_name)` for the pattern `(.*)_([0-9]+)`:
`re.match` with a greedy `(.*)` splits at the last underscore that is
followed by a digit, the second group being the maximal digit run after
it (the match need not reach the end of the string). -/
def findSplit : PyStr → Option (PyStr × PyStr)
  | [] => none
  | c :: rest =>
    match findSplit rest with
    | some (g1, g2) => some (c :: g1, g2)
    | none =>
      if c = '_' then
        match rest with
        | d :: _ =>
          if d.isDigit then some ([], rest.takeWhile Char.isDigit) else none
        | [] => none
      else none

def digitVal (c : Char) : Nat := c.toNat - 48

/-- Exact integer value of a digit string. -/
def strToNat (s : PyStr) : Nat := s.foldl (fun a c => a * 10 + digitVal c) 0

/-- The smallest `e` with `n / 2 ^ e < 2 ^ 53` (the ulp exponent of the
double nearest to a large `n`); the fuel argument is called with `n`
itself, which always suffices. -/
def rdFindE : Nat → Nat → Nat → Nat
  | 0, _, e => e
  | fuel + 1, n, e =>
    if n / 2 ^ e < 2 ^ 53 then e else rdFindE fuel n (e + 1)

/-- `n` rounded to a multiple of `2 ^ e`, ties to even quotient
(IEEE-754 round-to-nearest-even at ulp `2 ^ e`). -/
def rdRound (n e : Nat) : Nat :=
  if 2 ^ e / 2 < n % 2 ^ e ∨ (n % 2 ^ e = 2 ^ e / 2 ∧ (n / 2 ^ e) % 2 = 1)
  then (n / 2 ^ e + 1) * 2 ^ e
  else (n / 2 ^ e) * 2 ^ e

/-- Python `float(s)` of a nonnegative decimal digit string with exact
integer value `n`: the correctly rounded (round-to-nearest, ties-to-even)
IEEE-754 double, `none` for overflow to `inf`.  Integers up to `2 ^ 53`
convert exactly; above that the 53-bit significand forces rounding, and at
`2 ^ 1024` the result is `inf` (CPython's `strtod` returns `HUGE_VAL` for
an overflowing string, so `float()` of a string yields `inf`, not an
exception). -/
def roundDouble (n : Nat) : Option Nat :=
  if n ≤ 2 ^ 53 then some n
  else
    if rdRound n (rdFindE n n 0) < 2 ^ 1024 then some (rdRound n (rdFindE n n 0))
    else none

def dfNeedle : PyStr := "default_".data

def dfRepl : PyStr := "default_...".data

def unitNeedle : PyStr := "_unit".data

def unitRepl : PyStr := "..._unit".data

def kNeedle : PyStr := "k_".data

def kRepl : PyStr := "k_...".data

/-- `liberty_attribute_order`, returning the Python float pair as
`Option Nat` components (`none` standing for `float('inf')`).  Positions
are string indices (far below `2 ^ 53`, hence exact as doubles); the
secondary key is `float(n)` of the digit-suffix group, which rounds above
`2 ^ 53` and overflows to `inf`, modelled by `roundDouble`. -/
def liberty_attribute_order (attr_name : PyStr) : Option Nat × Option Nat :=
  match findSplit attr_name with
  | some (k, n) => (truthy_lookup k, roundDouble (strToNat n))
  | none =>
    match truthy_lookup attr_name with
    | some i => (some i, some 0)
    | none =>
      let lookup_name := attr_name
      let lookup_name :=
        if '(' ∈ lookup_name then lookup_name.takeWhile (fun c => c != '(')
        else lookup_name
      let lookup_name := if dfNeedle <:+: attr_name then dfRepl else lookup_name
      let lookup_name := if unitNeedle <:+: attr_name then unitRepl else lookup_name
      let lookup_name := if kNeedle <:+: attr_name then kRepl else lookup_name
      match truthy_lookup lookup_name with
      | some i => (some i, some 0)
      | none => (none, none)

/-- Ordering of one Python float component, `none` being `inf`
(`inf < inf` is false). -/
def ltO : Option Nat → Option Nat → Prop
  | some a, some b => a < b
  | some _, none => True
  | none, _ => False

/-- Python tuple comparison on the returned sort keys. -/
def keyLt (a b : Option Nat × Option Nat) : Prop :=
  ltO a.1 b.1 ∨ (a.1 = b.1 ∧ ltO a.2 b.2)

def digitsLex : PyStr := "0123456789".data

def digitChar (d : Nat) : Char := digitsLex.getD d '0'

/-- Decimal rendering of a natural number (most significant digit first). -/
def natDigits (n : Nat) : PyStr := ((Nat.digits 10 n).reverse).map digitChar

/-! ## List joiner and list renderer (`liberty_join`, `liberty_list`) -/

/-- A Python value occurring in a liberty list: int, float (modelled by its
`json.dumps` rendering), string, or nested list. -/
inductive PV where
  | i : Int → PV
  | f : PyStr → PV
  | s : PyStr → PV
  | lst : List PV → PV

def isFloatV : PV → Bool
  | PV.f _ => true
  | _ => false

def isIntV : PV → Bool
  | PV.i _ => true
  | _ => false

/-- Decimal rendering of a Python int (`str(0)` is `"0"`, not the empty
string `natDigits 0` would give). -/
def intRepr : Int → PyStr
  | Int.ofNat n => if n = 0 then ['0'] else natDigits n
  | Int.negSucc n => '-' :: natDigits (n + 1)

/-- `json.dumps` of a scalar/list value (floats carry their rendering;
string escapes do not occur in the verified inputs). -/
def pyDumps : PV → PyStr
  | PV.i n => intRepr n
  | PV.f r => r
  | PV.s t => '"' :: (t ++ ['"'])
  | PV.lst xs =>
    '[' :: (List.intercalate (", ".data)
      (xs.attach.map (fun x => pyDumps x.1)) ++ [']'])
decreasing_by
  have := List.sizeOf_lt_of_mem x.2
  simp only [PV.lst.sizeOf_spec]
  omega

/-- Python `str()` of the same values. -/
def pyStrOf : PV → PyStr
  | PV.i n => intRepr n
  | PV.f r => r
  | PV.s t => t
  | PV.lst xs =>
    '[' :: (List.intercalate (", ".data)
      (xs.attach.map (fun x => pyStrOf x.1)) ++ [']'])
decreasing_by
  have := List.sizeOf_lt_of_mem x.2
  simp only [PV.lst.sizeOf_spec]
  omega

/-- Which join closure `liberty_join` returned. -/
inductive JoinMode where
  | floats
  | ints

def assertMsg : PyStr := "AssertionError".data

def valueMsg : PyStr := "ValueError: Invalid value".data

def typeMsg : PyStr := "TypeError".data

/-- `liberty_join(l)`: count elements per type; floats present → all must
be numbers and the float join is used; otherwise ints present → all must
be ints and the plain join is used; otherwise `ValueError`. -/
def liberty_join (l : List PV) : Except PyStr JoinMode :=
  let nf := l.countP isFloatV
  let ni := l.countP isIntV
  if 0 < nf then
    if nf + ni = l.length then Except.ok JoinMode.floats else Except.error assertMsg
  else if 0 < ni then
    if ni = l.length then Except.ok JoinMode.ints else Except.error assertMsg
  else Except.error valueMsg

def commaSep : PyStr := ", ".data

/-- The join closures: `", ".join(liberty_float(f) for f in l)` and
`", ".join(str(f) for f in l)`. -/
def applyJoin : JoinMode → List PV → PyStr
  | JoinMode.floats, l => List.intercalate commaSep (l.map (fun x => liberty_float (pyDumps x)))
  | JoinMode.ints, l => List.intercalate commaSep (l.map pyStrOf)

/-- `liberty_join(l)(l)`: the joiner applied to the list it was built
from. -/
def liberty_join_render (l : List PV) : Except PyStr PyStr :=
  match liberty_join l with
  | Except.ok m => Except.ok (applyJoin m l)
  | Except.error e => Except.error e

def INDENT : PyStr := "    ".data

def indentS (n : Nat) : PyStr := List.flatten (List.replicate n INDENT)

/-- One row line `'%s"%s", \\' % (INDENT*(len(i)+1), join(l))` of the
nested branch of `liberty_list`.  The join closure iterates its argument:
a list row joins its elements; a string row is iterable too — Python
iterates its one-character substrings — while an int or float row raises
`TypeError`. -/
def renderRow (mode : JoinMode) (ind : Nat) : PV → Except PyStr PyStr
  | PV.lst r => Except.ok (indentS ind ++ '"' :: (applyJoin mode r ++ "\", \\".data))
  | PV.s t => Except.ok (indentS ind ++ '"' ::
      (applyJoin mode (t.map (fun c => PV.s [c])) ++ "\", \\".data))
  | _ => Except.error typeMsg

def renderRows (mode : JoinMode) (ind : Nat) : List PV → Except PyStr (List PyStr)
  | [] => Except.ok []
  | x :: rest =>
    match renderRow mode ind x with
    | Except.error e => Except.error e
    | Except.ok line =>
      match renderRows mode ind rest with
      | Except.error e => Except.error e
      | Except.ok ls => Except.ok (line :: ls)

/-- `o[-1] = o[-1][:-3] + ');'`. -/
def modifyLast : List PyStr → List PyStr
  | [] => []
  | [x] => [x.take (x.length - 3) ++ ");".data]
  | x :: xs => x :: modifyLast xs

/-- `liberty_list(k, v, i)`: the nested branch builds the join closure from
`v[0]` only and applies it to every row; the flat branch joins `v` itself.
`v[0]` on an empty list raises `IndexError` (the caller asserts
nonemptiness). -/
def liberty_list (k : PyStr) (v : List PV) (ind : Nat) : Except PyStr (List PyStr) :=
  match v with
  | [] => Except.error ("IndexError".data)
  | v0 :: _ =>
    match v0 with
    | PV.lst r0 =>
      match liberty_join r0 with
      | Except.error e => Except.error e
      | Except.ok mode =>
        match renderRows mode (ind + 1) v with
        | Except.error e => Except.error e
        | Except.ok ls =>
          match ls with
          | [] => Except.error ("IndexError".data)
          | first :: rest =>
            modifyLast ((indentS ind ++ k ++ '(' :: first.dropWhile Char.isWhitespace) :: rest) |> Except.ok
    | _ =>
      match liberty_join v with
      | Except.error e => Except.error e
      | Except.ok mode =>
        Except.ok [indentS ind ++ k ++ '(' :: '"' :: (applyJoin mode v ++ "\");".data)]

def isOkE {ε α : Type} : Except ε α → Bool
  | Except.ok _ => true
  | Except.error _ => false

/-! ## Concrete inputs used in witnesses and counterexamples -/

def cornerEx : PyStr := "ff_100C_1v65".data

def libEx : PyStr := "sky130_fd_sc_hd".data

def cellEx : PyStr := "a2111o_1".data

def keyCcsnMid : PyStr := "a_ccsn_b".data

def keyX : PyStr := "x".data

def keyA : PyStr := "a".data

def sIndex : PyStr := "index".data

def s15 : PyStr := "1.5".data

def s15out : PyStr := "1.5000000000".data

def s1e20 : PyStr := "1e+20".data

def s1e20out : PyStr := "1.000000e+20".data

def s1 : PyStr := "1".data

def s1out : PyStr := "1.0000000000".data

def sBigInt : PyStr := "123456789012".data

/-! ## Helper lemmas -/

theorem pyDropRight_append (x s : PyStr) : pyDropRight (x ++ s) s.length = x := by
  have h : (x ++ s).length - s.length = x.length := by
    simp [List.length_append]
  rw [pyDropRight, h, List.take_left]

/-! ## C6: TimingType.parse and variant containment -/

/-- C6: `basic` is contained in `ccsnoise` as bitsets, and for every name
`x` not itself ending in a recognized suffix, parsing `x + "_ccsnoise"`
yields `(x, ccsnoise)`, parsing `x + "_pwrlkg"` yields `(x, leakage)`, and
parsing a name ending in neither suffix returns it unchanged with
`basic`. -/
theorem claim6_parse_roundtrip (x : PyStr)
    (hc : ¬ sfxCcsnoise <:+ x) (hp : ¬ sfxPwrlkg <:+ x) :
    TimingType.mem TimingType.basic TimingType.ccsnoise = true ∧
    TimingType.parse (x ++ sfxCcsnoise) = (x, TimingType.ccsnoise) ∧
    TimingType.parse (x ++ sfxPwrlkg) = (x, TimingType.leakage) ∧
    TimingType.parse x = (x, TimingType.basic) := by
  refine ⟨by decide, ?_, ?_, ?_⟩
  · rw [TimingType.parse, if_pos (List.suffix_append x sfxCcsnoise),
      pyDropRight_append]
  · have h1 : ¬ sfxCcsnoise <:+ x ++ sfxPwrlkg := by
      intro h
      rcases List.suffix_or_suffix_of_suffix h (List.suffix_append x sfxPwrlkg)
        with h2 | h2
      · have h3 := List.IsSuffix.length_le h2
        revert h3; decide
      · exact absurd h2 (by decide)
    rw [TimingType.parse, if_neg h1, if_pos (List.suffix_append x sfxPwrlkg),
      pyDropRight_append]
  · rw [TimingType.parse, if_neg hc, if_neg hp]

theorem claim6_witness :
    TimingType.mem TimingType.basic TimingType.ccsnoise = true ∧
    TimingType.parse (cornerEx ++ sfxCcsnoise) = (cornerEx, TimingType.ccsnoise) ∧
    TimingType.parse (cornerEx ++ sfxPwrlkg) = (cornerEx, TimingType.leakage) ∧
    TimingType.parse cornerEx = (cornerEx, TimingType.basic) :=
  claim6_parse_roundtrip cornerEx (by decide) (by decide)

/-! ## C9: TimingType.file is total and exact -/

/-- C9: the `file` property never fails: it returns `"_ccsnoise"` exactly
on the `ccsnoise` value, `"_pwrlkg"` exactly on `leakage`, and `""` on
every other value, including the non-singular unions `basic|leakage` and
`ccsnoise|leakage`; the singular precondition lives only in the
file-naming callers. -/
theorem claim9_file_total (v : Nat) :
    (TimingType.file v = sfxCcsnoise ↔ v = TimingType.ccsnoise) ∧
    (TimingType.file v = sfxPwrlkg ↔ v = TimingType.leakage) ∧
    (v ≠ TimingType.ccsnoise → v ≠ TimingType.leakage → TimingType.file v = []) ∧
    TimingType.file (TimingType.basic ||| TimingType.leakage) = [] ∧
    TimingType.file (TimingType.ccsnoise ||| TimingType.leakage) = [] ∧
    TimingType.singular (TimingType.basic ||| TimingType.leakage) = false ∧
    TimingType.singular (TimingType.ccsnoise ||| TimingType.leakage) = false := by
  by_cases h1 : v = TimingType.ccsnoise
  · subst h1; exact ⟨by decide, by decide, fun h _ => absurd rfl h,
      by decide, by decide, by decide, by decide⟩
  · by_cases h2 : v = TimingType.leakage
    · subst h2; exact ⟨by decide, by decide, fun _ h => absurd rfl h,
        by decide, by decide, by decide, by decide⟩
    · rw [TimingType.file, if_neg h1, if_neg h2]
      exact ⟨⟨fun h => absurd h (by decide), fun h => absurd h h1⟩,
        ⟨fun h => absurd h (by decide), fun h => absurd h h2⟩,
        fun _ _ => rfl, by decide, by decide, by decide, by decide⟩

theorem claim9_witness :
    TimingType.file (TimingType.ccsnoise ||| TimingType.leakage) = [] :=
  (claim9_file_total (TimingType.ccsnoise ||| TimingType.leakage)).2.2.1
    (by decide) (by decide)

/-! ## C5: the singular gate on file-naming operations -/

/-- C5: over corner capability values (unions of the declared members),
both file-naming operations fail exactly on the non-singular values, and
on singular values they succeed and embed the suffix given by the spec
mapping `basic → ""`, `ccsnoise → "_ccsnoise"`, `leakage → "_pwrlkg"`
(which coincides with the code's `file` property) into the returned
path. -/
theorem claim5_singular_gate (ps : PyStr → Option PyStr)
    (lib cw corner libname corner2 : PyStr) (v : Nat)
    (hv : TimingType.IsUnion v) :
    (TimingType.singular v = false →
      cell_corner_file ps lib cw corner v = none ∧
      top_corner_file libname corner2 v = none) ∧
    (TimingType.singular v = true →
      suffixSpec v = some (TimingType.file v) ∧
      top_corner_file libname corner2 v =
        some (timingDir ++ libname ++ dunder ++ corner2 ++
          TimingType.file v ++ extLibJson) ∧
      ∃ pre, cell_corner_file ps lib cw corner v =
        some (pre ++ dunder ++ corner ++ TimingType.file v ++ extLibJson)) := by
  simp only [TimingType.IsUnion, List.mem_cons, List.not_mem_nil, or_false] at hv
  rcases hv with h | h | h | h | h <;> subst h
  · exact ⟨fun h => absurd h (by decide),
      fun _ => ⟨by decide, rfl, ⟨_, rfl⟩⟩⟩
  · exact ⟨fun h => absurd h (by decide),
      fun _ => ⟨by decide, rfl, ⟨_, rfl⟩⟩⟩
  · exact ⟨fun h => absurd h (by decide),
      fun _ => ⟨by decide, rfl, ⟨_, rfl⟩⟩⟩
  · exact ⟨fun _ => ⟨rfl, rfl⟩, fun h => absurd h (by decide)⟩
  · exact ⟨fun _ => ⟨rfl, rfl⟩, fun h => absurd h (by decide)⟩

theorem claim5_witness :
    (cell_corner_file (fun _ => none) libEx cellEx cornerEx
        (TimingType.basic ||| TimingType.leakage) = none ∧
      top_corner_file libEx cornerEx
        (TimingType.basic ||| TimingType.leakage) = none) ∧
    suffixSpec TimingType.ccsnoise = some (TimingType.file TimingType.ccsnoise) ∧
    top_corner_file libEx cornerEx TimingType.ccsnoise =
      some (timingDir ++ libEx ++ dunder ++ cornerEx ++
        TimingType.file TimingType.ccsnoise ++ extLibJson) :=
  ⟨(claim5_singular_gate (fun _ => none) libEx cellEx cornerEx libEx cornerEx
      (TimingType.basic ||| TimingType.leakage) (by decide)).1 (by decide),
   ((claim5_singular_gate (fun _ => none) libEx cellEx cornerEx libEx cornerEx
      TimingType.ccsnoise (by decide)).2 (by decide)).1,
   ((claim5_singular_gate (fun _ => none) libEx cellEx cornerEx libEx cornerEx
      TimingType.ccsnoise (by decide)).2 (by decide)).2.1⟩

/-! ## C1: input-variant selection and conditional stripping -/

/-- C1: for a corner whose capability union contains both `basic` and
`ccsnoise`, a `basic` output request selects `ccsnoise` as the input
variant and the generator applies ccsnoise-stripping; for a `ccsnoise` or
`leakage` output request the selected input variant equals the output
variant, and no stripping is applied for `ccsnoise` output. -/
theorem claim1_input_selection (u : Nat) (data : Record)
    (hb : TimingType.mem TimingType.basic u = true)
    (hc : TimingType.mem TimingType.ccsnoise u = true) :
    select_input TimingType.basic u = some TimingType.ccsnoise ∧
    generate_strip TimingType.basic data = remove_ccsnoise data ∧
    select_input TimingType.ccsnoise u = some TimingType.ccsnoise ∧
    generate_strip TimingType.ccsnoise data = data ∧
    (∀ o, o = TimingType.ccsnoise ∨ o = TimingType.leakage →
      ∀ i, select_input o u = some i → i = o) := by
  refine ⟨?_, ?_, ?_, ?_, ?_⟩
  · rw [select_input, if_pos hb, if_pos ⟨rfl, hc⟩]
  · rw [generate_strip, if_pos (by decide)]
  · rw [select_input, if_pos hc,
      if_neg (fun h => absurd h.1 (by decide))]
  · rw [generate_strip, if_neg (by simp)]
  · intro o ho i hsel
    rw [select_input] at hsel
    split at hsel
    · split at hsel
      · rename_i hcond
        rcases ho with h | h <;> subst h <;> exact absurd hcond.1 (by decide)
      · exact (Option.some.inj hsel).symm
    · exact absurd hsel (by simp)

theorem claim1_witness :
    select_input TimingType.basic TimingType.ccsnoise = some TimingType.ccsnoise ∧
    generate_strip TimingType.ccsnoise [] = ([] : Record) :=
  ⟨(claim1_input_selection TimingType.ccsnoise [] (by decide) (by decide)).1,
   (claim1_input_selection TimingType.ccsnoise [] (by decide) (by decide)).2.2.2.1⟩

/-! ## C2: lemmas about remove_ccsnoise -/

theorem lookup_remove_of_contains (data : Record) (k : PyStr)
    (h : ccsnU <:+: k) : lookupA k (remove_ccsnoise data) = none := by
  induction data with
  | nil => rfl
  | cons e rest ih =>
    obtain ⟨k0, v⟩ := e
    rw [remove_ccsnoise]
    by_cases h0 : ccsnU <:+: k0
    · rw [if_pos h0]; exact ih
    · have hne : k0 ≠ k := fun he => h0 (he ▸ h)
      by_cases hp : pinPre <+: k0
      · rw [if_neg h0, if_pos hp, lookupA, if_neg hne]; exact ih
      · rw [if_neg h0, if_neg hp, lookupA, if_neg hne]; exact ih

theorem lookup_remove_other (data : Record) (k : PyStr)
    (h : ¬ ccsnU <:+: k) (hp : ¬ pinPre <+: k) :
    lookupA k (remove_ccsnoise data) = lookupA k data := by
  induction data with
  | nil => rfl
  | cons e rest ih =>
    obtain ⟨k0, v⟩ := e
    rw [remove_ccsnoise]
    by_cases h0 : ccsnU <:+: k0
    · have hne : k0 ≠ k := fun he => h (he ▸ h0)
      rw [if_pos h0, lookupA, if_neg hne]; exact ih
    · by_cases hp0 : pinPre <+: k0
      · have hne : k0 ≠ k := fun he => hp (he ▸ hp0)
        rw [if_neg h0, if_pos hp0, lookupA, lookupA, if_neg hne, if_neg hne]
        exact ih
      · rw [if_neg h0, if_neg hp0, lookupA, lookupA]
        by_cases he : k0 = k
        · rw [if_pos he, if_pos he]
        · rw [if_neg he, if_neg he]; exact ih

theorem lookup_remove_pin_entry (data : Record) (k : PyStr)
    (h : ¬ ccsnU <:+: k) (hp : pinPre <+: k) :
    ∀ p, lookupA k data = some (JVal.dict p) →
      lookupA k (remove_ccsnoise data) = some (JVal.dict (remove_pin p)) := by
  induction data with
  | nil => intro p hl; cases hl
  | cons e rest ih =>
    obtain ⟨k0, v⟩ := e
    intro p hl
    rw [remove_ccsnoise]
    by_cases h0 : ccsnU <:+: k0
    · have hne : k0 ≠ k := fun he => h (he ▸ h0)
      rw [lookupA, if_neg hne] at hl
      rw [if_pos h0]; exact ih p hl
    · by_cases he : k0 = k
      · subst he
        rw [lookupA, if_pos rfl] at hl
        rw [if_neg h0, if_pos hp, lookupA, if_pos rfl,
          Option.some.inj hl]
        rfl
      · rw [lookupA, if_neg he] at hl
        by_cases hp0 : pinPre <+: k0
        · rw [if_neg h0, if_pos hp0, lookupA, if_neg he]; exact ih p hl
        · rw [if_neg h0, if_neg hp0, lookupA, if_neg he]; exact ih p hl

theorem lookup_remove_pin_del (pin : Record) (pk : PyStr)
    (h : ccsnU <+: pk ∨ pk = ivKey) : lookupA pk (remove_pin pin) = none := by
  induction pin with
  | nil => rfl
  | cons e rest ih =>
    obtain ⟨k0, v⟩ := e
    rw [remove_pin]
    by_cases h0 : k0 = ivKey ∨ ccsnU <+: k0
    · rw [if_pos h0]; exact ih
    · have hne : k0 ≠ pk := by
        rintro rfl
        rcases h with h | h
        · exact h0 (Or.inr h)
        · exact h0 (Or.inl h)
      by_cases ht : k0 = timingKey
      · rw [if_neg h0, if_pos ht, lookupA, if_neg hne]; exact ih
      · rw [if_neg h0, if_neg ht, lookupA, if_neg hne]; exact ih

theorem lookup_remove_pin_other (pin : Record) (pk : PyStr)
    (h1 : ¬ ccsnU <+: pk) (h2 : pk ≠ ivKey) (h3 : pk ≠ timingKey) :
    lookupA pk (remove_pin pin) = lookupA pk pin := by
  induction pin with
  | nil => rfl
  | cons e rest ih =>
    obtain ⟨k0, v⟩ := e
    rw [remove_pin]
    by_cases h0 : k0 = ivKey ∨ ccsnU <+: k0
    · have hne : k0 ≠ pk := by
        rintro rfl
        rcases h0 with h0 | h0
        · exact h2 h0
        · exact h1 h0
      rw [if_pos h0, lookupA, if_neg hne]; exact ih
    · by_cases ht : k0 = timingKey
      · have hne : k0 ≠ pk := fun he => h3 (he ▸ ht)
        rw [if_neg h0, if_pos ht, lookupA, lookupA, if_neg hne, if_neg hne]
        exact ih
      · rw [if_neg h0, if_neg ht, lookupA, lookupA]
        by_cases he : k0 = pk
        · rw [if_pos he, if_pos he]
        · rw [if_neg he, if_neg he]; exact ih

theorem lookup_remove_pin_timing (pin : Record) :
    ∀ ts, lookupA timingKey pin = some (JVal.list ts) →
      lookupA timingKey (remove_pin pin) =
        some (JVal.list (ts.map stripElem)) := by
  induction pin with
  | nil => intro ts hl; cases hl
  | cons e rest ih =>
    obtain ⟨k0, v⟩ := e
    intro ts hl
    rw [remove_pin]
    by_cases h0 : k0 = ivKey ∨ ccsnU <+: k0
    · have hne : k0 ≠ timingKey := by
        rintro rfl
        rcases h0 with h0 | h0
        · exact absurd h0 (by decide)
        · exact absurd h0 (by decide)
      rw [lookupA, if_neg hne] at hl
      rw [if_pos h0]; exact ih ts hl
    · by_cases ht : k0 = timingKey
      · subst ht
        rw [lookupA, if_pos rfl] at hl
        rw [if_neg h0, if_pos rfl, lookupA, if_pos rfl, Option.some.inj hl]
        rfl
      · rw [lookupA, if_neg ht] at hl
        rw [if_neg h0, if_neg ht, lookupA, if_neg ht]
        exact ih ts hl

theorem lookup_stripCcsn_del (td : Record) (tk : PyStr)
    (h : ccsnU <+: tk) : lookupA tk (stripCcsn td) = none := by
  induction td with
  | nil => rfl
  | cons e rest ih =>
    obtain ⟨k0, v⟩ := e
    rw [stripCcsn]
    by_cases h0 : ccsnU <+: k0
    · rw [if_pos h0]; exact ih
    · have hne : k0 ≠ tk := fun he => h0 (he ▸ h)
      rw [if_neg h0, lookupA, if_neg hne]; exact ih

theorem lookup_stripCcsn_other (td : Record) (tk : PyStr)
    (h : ¬ ccsnU <+: tk) : lookupA tk (stripCcsn td) = lookupA tk td := by
  induction td with
  | nil => rfl
  | cons e rest ih =>
    obtain ⟨k0, v⟩ := e
    rw [stripCcsn]
    by_cases h0 : ccsnU <+: k0
    · have hne : k0 ≠ tk := fun he => h (he ▸ h0)
      rw [if_pos h0, lookupA, if_neg hne]; exact ih
    · rw [if_neg h0, lookupA, lookupA]
      by_cases he : k0 = tk
      · rw [if_pos he, if_pos he]
      · rw [if_neg he, if_neg he]; exact ih

/-- C2 (counterexample to the claim as stated): the top-level loop tests
`"ccsn_" in k`, a substring test, so the key `a_ccsn_b` — which is not
prefixed with `ccsn_` and which the claim therefore requires to be left
unchanged — is removed. -/
theorem claim2_counterexample :
    (¬ ccsnU <+: keyCcsnMid) ∧ keyCcsnMid ≠ ivKey ∧
    containsKey keyCcsnMid [(keyCcsnMid, JVal.num 1)] = true ∧
    containsKey keyCcsnMid (remove_ccsnoise [(keyCcsnMid, JVal.num 1)]) = false := by
  refine ⟨by decide, by decide, by decide, ?_⟩
  have h : ccsnU <:+: keyCcsnMid := by decide
  rw [remove_ccsnoise, if_pos h]
  rfl

/-- C2 (amended: the top level removes every key *containing* `ccsn_`, and
the `input_voltage` removal happens inside each pin entry): characterization
of `remove_ccsnoise` — keys containing `ccsn_` are gone from the top level
and all other top-level keys keep their values, with `pin `-keyed dicts
rewritten by the pin transformation, which drops `input_voltage` and
`ccsn_`-prefixed keys, keeps every other value, and strips `ccsn_`-prefixed
keys from each dict element of the `timing` list. -/
theorem claim2_strip_characterization (data pin td : Record) (k pk tk : PyStr) :
    (ccsnU <:+: k → lookupA k (remove_ccsnoise data) = none) ∧
    (¬ ccsnU <:+: k → ¬ pinPre <+: k →
      lookupA k (remove_ccsnoise data) = lookupA k data) ∧
    (¬ ccsnU <:+: k → pinPre <+: k →
      ∀ p, lookupA k data = some (JVal.dict p) →
        lookupA k (remove_ccsnoise data) = some (JVal.dict (remove_pin p))) ∧
    (ccsnU <+: pk ∨ pk = ivKey → lookupA pk (remove_pin pin) = none) ∧
    (¬ ccsnU <+: pk → pk ≠ ivKey → pk ≠ timingKey →
      lookupA pk (remove_pin pin) = lookupA pk pin) ∧
    (∀ ts, lookupA timingKey pin = some (JVal.list ts) →
      lookupA timingKey (remove_pin pin) =
        some (JVal.list (ts.map stripElem))) ∧
    (ccsnU <+: tk → lookupA tk (stripCcsn td) = none) ∧
    (¬ ccsnU <+: tk → lookupA tk (stripCcsn td) = lookupA tk td) ∧
    (∀ d, stripElem (JVal.dict d) = JVal.dict (stripCcsn d)) :=
  ⟨fun h => lookup_remove_of_contains data k h,
   fun h hp => lookup_remove_other data k h hp,
   fun h hp => lookup_remove_pin_entry data k h hp,
   fun h => lookup_remove_pin_del pin pk h,
   fun h1 h2 h3 => lookup_remove_pin_other pin pk h1 h2 h3,
   fun ts => lookup_remove_pin_timing pin ts,
   fun h => lookup_stripCcsn_del td tk h,
   fun h => lookup_stripCcsn_other td tk h,
   fun _ => rfl⟩

theorem claim2_witness :
    lookupA keyX (remove_ccsnoise [(keyX, JVal.num 1)]) =
      lookupA keyX [(keyX, JVal.num 1)] ∧
    lookupA ccsnU (remove_ccsnoise [(ccsnU, JVal.num 1)]) = none :=
  ⟨(claim2_strip_characterization [(keyX, JVal.num 1)] [] [] keyX keyX keyX).2.1
      (by decide) (by decide),
   (claim2_strip_characterization [(ccsnU, JVal.num 1)] [] [] ccsnU ccsnU ccsnU).1
      (by decide)⟩

/-! ## C7: lemmas about the common/corner merge -/

theorem lookup_map_set (l : Record) (k : PyStr) (v : JVal)
    (hc : containsKey k l = true) :
    lookupA k (l.map (fun e => if e.1 = k then (k, v) else e)) = some v := by
  induction l with
  | nil => cases hc
  | cons e rest ih =>
    obtain ⟨k0, v0⟩ := e
    rw [containsKey] at hc
    by_cases he : k0 = k
    · show lookupA k ((if k0 = k then (k, v) else (k0, v0)) :: _) = some v
      rw [if_pos he, lookupA, if_pos rfl]
    · rw [if_neg he] at hc
      show lookupA k ((if k0 = k then (k, v) else (k0, v0)) :: _) = some v
      rw [if_neg he, lookupA, if_neg he]
      exact ih hc

theorem lookup_append_single (l : Record) (k : PyStr) (v : JVal)
    (hc : containsKey k l = false) :
    lookupA k (l ++ [(k, v)]) = some v := by
  induction l with
  | nil => rw [List.nil_append, lookupA, if_pos rfl]
  | cons e rest ih =>
    obtain ⟨k0, v0⟩ := e
    rw [containsKey] at hc
    by_cases he : k0 = k
    · rw [if_pos he] at hc; cases hc
    · rw [if_neg he] at hc
      rw [List.cons_append, lookupA, if_neg he]
      exact ih hc

theorem lookup_setKey_self (l : Record) (k : PyStr) (v : JVal) :
    lookupA k (setKey l k v) = some v := by
  rw [setKey]
  by_cases hc : containsKey k l
  · rw [if_pos hc]; exact lookup_map_set l k v hc
  · rw [if_neg hc]
    exact lookup_append_single l k v (by simpa using hc)

theorem lookup_setKey_other (l : Record) (k : PyStr) (v : JVal) (k2 : PyStr)
    (hne : k2 ≠ k) : lookupA k2 (setKey l k v) = lookupA k2 l := by
  rw [setKey]
  by_cases hc : containsKey k l
  · rw [if_pos hc]; clear hc
    induction l with
    | nil => rfl
    | cons e rest ih =>
      obtain ⟨k0, v0⟩ := e
      by_cases he : k0 = k
      · show lookupA k2 ((if k0 = k then (k, v) else (k0, v0)) :: _) =
          lookupA k2 ((k0, v0) :: rest)
        rw [if_pos he, lookupA, lookupA,
          if_neg (fun h => hne h.symm),
          if_neg (fun h => hne ((he.symm.trans h).symm))]
        exact ih
      · show lookupA k2 ((if k0 = k then (k, v) else (k0, v0)) :: _) =
          lookupA k2 ((k0, v0) :: rest)
        rw [if_neg he, lookupA, lookupA]
        by_cases h2 : k0 = k2
        · rw [if_pos h2, if_pos h2]
        · rw [if_neg h2, if_neg h2]
          exact ih
  · rw [if_neg hc]; clear hc
    induction l with
    | nil =>
      show lookupA k2 [(k, v)] = lookupA k2 []
      simp only [lookupA, if_neg (Ne.symm hne)]
    | cons e rest ih =>
      obtain ⟨k0, v0⟩ := e
      rw [List.cons_append, lookupA, lookupA]
      by_cases h2 : k0 = k2
      · rw [if_pos h2, if_pos h2]
      · rw [if_neg h2, if_neg h2]
        exact ih

theorem containsKey_append (l1 l2 : Record) (k : PyStr) :
    containsKey k (l1 ++ l2) = (containsKey k l1 || containsKey k l2) := by
  induction l1 with
  | nil => rfl
  | cons e rest ih =>
    obtain ⟨k0, v0⟩ := e
    rw [List.cons_append, containsKey, containsKey]
    by_cases h : k0 = k
    · rw [if_pos h, if_pos h]; rfl
    · rw [if_neg h, if_neg h]; exact ih

theorem containsKey_setKey_of (l : Record) (k : PyStr) (v : JVal) (k2 : PyStr)
    (h : containsKey k2 l = true) : containsKey k2 (setKey l k v) = true := by
  rw [setKey]
  by_cases hc : containsKey k l
  · rw [if_pos hc]; clear hc
    induction l with
    | nil => cases h
    | cons e rest ih =>
      obtain ⟨k0, v0⟩ := e
      rw [containsKey] at h
      by_cases he : k0 = k
      · show containsKey k2 ((if k0 = k then (k, v) else (k0, v0)) :: _) = true
        rw [if_pos he, containsKey]
        by_cases h2 : k = k2
        · rw [if_pos h2]
        · rw [if_neg h2]
          rw [if_neg (fun hh => h2 (he.symm.trans hh))] at h
          exact ih h
      · show containsKey k2 ((if k0 = k then (k, v) else (k0, v0)) :: _) = true
        rw [if_neg he, containsKey]
        by_cases h2 : k0 = k2
        · rw [if_pos h2]
        · rw [if_neg h2]
          rw [if_neg h2] at h
          exact ih h
  · rw [if_neg hc, containsKey_append, h]
    rfl

theorem containsKey_eq_false_of_not_mem (l : Record) (k : PyStr)
    (h : k ∉ l.map Prod.fst) : containsKey k l = false := by
  induction l with
  | nil => rfl
  | cons e rest ih =>
    obtain ⟨k0, v0⟩ := e
    rw [List.map_cons, List.mem_cons] at h
    rw [containsKey]
    by_cases he : k0 = k
    · exact absurd (Or.inl he.symm) h
    · rw [if_neg he]
      exact ih (fun hm => h (Or.inr hm))

theorem mergeLoop_lookup_not_contains (corner : Record) :
    ∀ common warns k, containsKey k corner = false →
      lookupA k (mergeLoop common warns corner).1 = lookupA k common := by
  induction corner with
  | nil => intro _ _ _ _; rfl
  | cons e rest ih =>
    obtain ⟨k0, v0⟩ := e
    intro common warns k h
    rw [containsKey] at h
    by_cases he : k0 = k
    · rw [if_pos he] at h; cases h
    · rw [if_neg he] at h
      rw [mergeLoop, ih _ _ k h]
      exact lookup_setKey_other common k0 v0 k (fun hh => he hh.symm)

theorem mergeLoop_lookup_contains (corner : Record)
    (hnd : (corner.map Prod.fst).Nodup) :
    ∀ common warns k, containsKey k corner = true →
      lookupA k (mergeLoop common warns corner).1 = lookupA k corner := by
  induction corner with
  | nil => intro _ _ _ h; cases h
  | cons e rest ih =>
    obtain ⟨k0, v0⟩ := e
    rw [List.map_cons, List.nodup_cons] at hnd
    obtain ⟨hk0, hndr⟩ := hnd
    intro common warns k h
    rw [mergeLoop]
    by_cases he : k0 = k
    · subst he
      have hcr : containsKey k0 rest = false :=
        containsKey_eq_false_of_not_mem rest k0 hk0
      rw [mergeLoop_lookup_not_contains rest _ _ k0 hcr, lookup_setKey_self,
        lookupA, if_pos rfl]
    · rw [containsKey, if_neg he] at h
      rw [ih hndr _ _ k h, lookupA, if_neg he]

theorem mergeLoop_warns_mono (corner : Record) :
    ∀ common warns k, k ∈ warns → k ∈ (mergeLoop common warns corner).2 := by
  induction corner with
  | nil => intro _ _ _ h; exact h
  | cons e rest ih =>
    obtain ⟨k0, v0⟩ := e
    intro common warns k h
    rw [mergeLoop]
    apply ih
    by_cases hc : containsKey k0 common
    · rw [if_pos hc]; exact List.mem_append_left _ h
    · rw [if_neg hc]; exact h

theorem mergeLoop_warns_overwrite (corner : Record) :
    ∀ common warns k, containsKey k common = true →
      containsKey k corner = true →
      k ∈ (mergeLoop common warns corner).2 := by
  induction corner with
  | nil => intro _ _ _ _ h; cases h
  | cons e rest ih =>
    obtain ⟨k0, v0⟩ := e
    intro common warns k hcom h
    rw [containsKey] at h
    rw [mergeLoop]
    by_cases he : k0 = k
    · subst he
      rw [if_pos hcom]
      exact mergeLoop_warns_mono rest _ _ k0
        (List.mem_append_right _ (by simp))
    · rw [if_neg he] at h
      exact ih _ _ k (containsKey_setKey_of common k0 v0 k hcom) h

/-- C7: merging the corner top record over the common record maps every key
of the corner record to the corner value, every key present only in the
common record to the common value, and a key present in both is reported
as an overwrite; the merge itself is total, never a fatal failure. -/
theorem claim7_merge (common corner : Record) (k : PyStr)
    (hnd : (corner.map Prod.fst).Nodup) :
    (containsKey k corner = true →
      lookupA k (mergeRecords common corner).1 = lookupA k corner) ∧
    (containsKey k corner = false →
      lookupA k (mergeRecords common corner).1 = lookupA k common) ∧
    (containsKey k common = true → containsKey k corner = true →
      k ∈ (mergeRecords common corner).2) :=
  ⟨fun h => mergeLoop_lookup_contains corner hnd common [] k h,
   fun h => mergeLoop_lookup_not_contains corner common [] k h,
   fun h1 h2 => mergeLoop_warns_overwrite corner common [] k h1 h2⟩

theorem claim7_witness :
    lookupA keyA (mergeRecords [(keyA, JVal.num 1)] [(keyA, JVal.num 2)]).1 =
      lookupA keyA [(keyA, JVal.num 2)] ∧
    lookupA keyX (mergeRecords [(keyX, JVal.num 1)] [(keyA, JVal.num 2)]).1 =
      lookupA keyX [(keyX, JVal.num 1)] ∧
    keyA ∈ (mergeRecords [(keyA, JVal.num 1)] [(keyA, JVal.num 2)]).2 :=
  ⟨(claim7_merge [(keyA, JVal.num 1)] [(keyA, JVal.num 2)] keyA (by decide)).1
      (by decide),
   (claim7_merge [(keyX, JVal.num 1)] [(keyA, JVal.num 2)] keyX (by decide)).2.1
      (by decide),
   (claim7_merge [(keyA, JVal.num 1)] [(keyA, JVal.num 2)] keyA (by decide)).2.2
      (by decide) (by decide)⟩

/-! ## C4: liberty_float -/

/-- C4 (counterexample to the claim as stated): an integer whose rendering
is already `WIDTH` characters long (here twelve digits) is returned
unchanged, with no trailing decimal point, because the code only appends
`'.'` when `len(s) < WIDTH`. -/
theorem claim4_counterexample :
    liberty_float sBigInt = sBigInt ∧ '.' ∉ liberty_float sBigInt ∧
    'e' ∉ sBigInt ∧ '.' ∉ sBigInt := by
  refine ⟨by decide, by decide, by decide, by decide⟩

/-- C4 (amended: only integer renderings shorter than the reference width
gain the trailing decimal point): every output of the formatter has length
at least `WIDTH` (the length of the rendering of `0.0083333333`, twelve);
an integer rendering (no `e` and no `.`) shorter than `WIDTH` becomes the
rendering followed by `'.'` and zero padding; and the three quoted
examples hold (`json.dumps` of `1.5`, `1e20`, `1` being `"1.5"`, `"1e+20"`
and `"1"`). -/
theorem claim4_width (s : PyStr) :
    WIDTH ≤ (liberty_float s).length ∧
    ('e' ∉ s → '.' ∉ s → s.length < WIDTH →
      liberty_float s = s ++ '.' :: List.replicate (WIDTH - (s.length + 1)) '0') ∧
    liberty_float s15 = s15out ∧
    liberty_float s1e20 = s1e20out ∧
    liberty_float s1 = s1out := by
  refine ⟨?_, ?_, by decide, by decide, by decide⟩
  · simp only [liberty_float]
    split_ifs with he hd hl hl2
    · simp [List.length_append, List.length_replicate]
      omega
    · simp [List.length_append, List.length_replicate]
      omega
    · simp [padZeros, List.length_append, List.length_replicate]
      omega
    · simp [padZeros, List.length_append, List.length_replicate]
      omega
    · omega
  · intro he hd hl
    rw [liberty_float, if_neg he, if_neg hd, if_pos hl, padZeros,
      List.append_assoc]
    simp [List.length_append]

theorem claim4_witness :
    liberty_float s1 = s1 ++ '.' :: List.replicate (WIDTH - (s1.length + 1)) '0' :=
  (claim4_width s1).2.1 (by decide) (by decide) (by decide)

/-! ## C3: lemmas about the indexed-attribute regex split and digits -/

theorem findSplit_no_underscore (l : PyStr) (h : '_' ∉ l) :
    findSplit l = none := by
  induction l with
  | nil => rfl
  | cons c rest ih =>
    simp only [findSplit, ih (fun hm => h (List.mem_cons_of_mem c hm))]
    rw [if_neg (fun hc : c = '_' => h (by rw [← hc]; exact List.mem_cons_self c rest))]

theorem findSplit_append (base ds : PyStr) (hne : ds ≠ [])
    (hdig : ∀ c ∈ ds, c.isDigit = true) :
    findSplit (base ++ '_' :: ds) = some (base, ds) := by
  induction base with
  | nil =>
    show findSplit ('_' :: ds) = some ([], ds)
    have hnu : '_' ∉ ds := fun hm => absurd (hdig '_' hm) (by decide)
    cases ds with
    | nil => exact absurd rfl hne
    | cons d ds2 =>
      conv_lhs => rw [findSplit]
      rw [findSplit_no_underscore (d :: ds2) hnu]
      simp [hdig d (List.mem_cons_self d ds2),
        List.takeWhile_eq_self_iff.mpr hdig]
  | cons c base2 ih =>
    show findSplit (c :: (base2 ++ '_' :: ds)) = some (c :: base2, ds)
    simp only [findSplit, ih]

theorem digitVal_digitChar (d : Nat) (h : d < 10) :
    digitVal (digitChar d) = d := by
  interval_cases d <;> decide

theorem isDigit_digitChar (d : Nat) (h : d < 10) :
    (digitChar d).isDigit = true := by
  interval_cases d <;> decide

theorem natDigits_digits (n : Nat) : ∀ c ∈ natDigits n, c.isDigit = true := by
  intro c hc
  rw [natDigits] at hc
  obtain ⟨d, hd, rfl⟩ := List.mem_map.mp hc
  exact isDigit_digitChar d
    (Nat.digits_lt_base (by norm_num) (List.mem_reverse.mp hd))

theorem natDigits_ne_nil (n : Nat) (h : n ≠ 0) : natDigits n ≠ [] := by
  rw [natDigits]
  simp [List.map_eq_nil_iff, List.reverse_eq_nil_iff,
    Nat.digits_ne_nil_iff_ne_zero.mpr h]

theorem strToNat_rev_digits (L : List Nat) (hL : ∀ d ∈ L, d < 10) :
    strToNat ((L.reverse).map digitChar) = Nat.ofDigits 10 L := by
  induction L with
  | nil => rfl
  | cons d L ih =>
    rw [List.reverse_cons, List.map_append, strToNat, List.foldl_append]
    show List.foldl _ (strToNat ((L.reverse).map digitChar)) [digitChar d] =
      Nat.ofDigits 10 (d :: L)
    rw [List.foldl_cons, List.foldl_nil,
      ih (fun x hx => hL x (List.mem_cons_of_mem d hx)),
      digitVal_digitChar d (hL d (List.mem_cons_self d L)),
      Nat.ofDigits_cons]
    omega

theorem strToNat_natDigits (n : Nat) : strToNat (natDigits n) = n := by
  rw [natDigits,
    strToNat_rev_digits _ (fun d hd => Nat.digits_lt_base (by norm_num) hd),
    Nat.ofDigits_digits]

theorem roundDouble_exact (n : Nat) (h : n ≤ 2 ^ 53) :
    roundDouble n = some n := by
  rw [roundDouble, if_pos h]

theorem rdFindE_succ (fuel n e : Nat) :
    rdFindE (fuel + 1) n e =
      if n / 2 ^ e < 2 ^ 53 then e else rdFindE fuel n (e + 1) := rfl

theorem rdFindE_big : rdFindE 9007199254740993 9007199254740993 0 = 1 := by
  rw [show (9007199254740993 : Nat) = 9007199254740992 + 1 from rfl,
    rdFindE_succ, if_neg (by norm_num)]
  rw [show (9007199254740992 : Nat) = 9007199254740991 + 1 from rfl,
    rdFindE_succ, if_pos (by norm_num)]

/-- `float('9007199254740993')` is `9007199254740992.0`: the integer
`2 ^ 53 + 1` lies halfway between the representable `2 ^ 53` and
`2 ^ 53 + 2`, and the tie goes to the even significand. -/
theorem roundDouble_big :
    roundDouble 9007199254740993 = some 9007199254740992 := by
  rw [roundDouble, if_neg (by norm_num), rdFindE_big]
  norm_num [rdRound]

theorem ltO_irrefl (x : Option Nat) : ¬ ltO x x := by
  cases x with
  | none => exact id
  | some i => exact lt_irrefl i

theorem keyLt_irrefl (a : Option Nat × Option Nat) : ¬ keyLt a a := by
  rintro (h | ⟨-, h⟩)
  · exact ltO_irrefl a.1 h
  · exact ltO_irrefl a.2 h

/-- For every nonzero `n`, the ordering of `<base>_<n>` resolves the base
as primary key and `float(n)` (the rounded double) as secondary key. -/
theorem liberty_attribute_order_indexed (base : PyStr) (n : Nat) (hn : n ≠ 0) :
    liberty_attribute_order (base ++ '_' :: natDigits n) =
      (truthy_lookup base, roundDouble n) := by
  have hs := findSplit_append base (natDigits n)
    (natDigits_ne_nil n hn) (natDigits_digits n)
  simp only [liberty_attribute_order, hs, strToNat_natDigits]

/-- C3 (counterexample to the claim as stated): the secondary sort key is
`float(n)`, which rounds to the nearest double; at `m = 2 ^ 53` and
`n = 2 ^ 53 + 1` both names map to the *same* key, so `<base>_<m>` does
not sort strictly before `<base>_<n>`. -/
theorem claim3_counterexample :
    (9007199254740992 : Nat) < 9007199254740993 ∧
    liberty_attribute_order (sIndex ++ '_' :: natDigits 9007199254740992) =
      liberty_attribute_order (sIndex ++ '_' :: natDigits 9007199254740993) ∧
    ¬ keyLt (liberty_attribute_order (sIndex ++ '_' :: natDigits 9007199254740992))
      (liberty_attribute_order (sIndex ++ '_' :: natDigits 9007199254740993)) := by
  have hem : liberty_attribute_order (sIndex ++ '_' :: natDigits 9007199254740992) =
      (truthy_lookup sIndex, some 9007199254740992) := by
    rw [liberty_attribute_order_indexed sIndex 9007199254740992 (by norm_num),
      roundDouble_exact _ (by norm_num)]
  have hen : liberty_attribute_order (sIndex ++ '_' :: natDigits 9007199254740993) =
      (truthy_lookup sIndex, some 9007199254740992) := by
    rw [liberty_attribute_order_indexed sIndex 9007199254740993 (by norm_num),
      roundDouble_big]
  refine ⟨by norm_num, hem.trans hen.symm, ?_⟩
  rw [hem, hen]
  exact keyLt_irrefl _

/-- C3 (amended: restricted to `n ≤ 2 ^ 53`, the range on which `float()`
conversion of the digit suffix is exact): for every attribute base name
and positive integers `m < n ≤ 2 ^ 53`, the ordering function maps
`<base>_<m>` and `<base>_<n>` to keys with equal primary component and
secondary components `m` and `n`, so `<base>_<m>` sorts strictly before
`<base>_<n>` under the Python tuple order — numeric, not lexicographic
(in particular `index_1 < ... < index_10`). -/
theorem claim3_indexed_order (base : PyStr) (m n : Nat)
    (hm : 0 < m) (hmn : m < n) (hn : n ≤ 2 ^ 53) :
    (liberty_attribute_order (base ++ '_' :: natDigits m)).1 =
      (liberty_attribute_order (base ++ '_' :: natDigits n)).1 ∧
    (liberty_attribute_order (base ++ '_' :: natDigits m)).2 = some m ∧
    (liberty_attribute_order (base ++ '_' :: natDigits n)).2 = some n ∧
    keyLt (liberty_attribute_order (base ++ '_' :: natDigits m))
      (liberty_attribute_order (base ++ '_' :: natDigits n)) := by
  have hem : liberty_attribute_order (base ++ '_' :: natDigits m) =
      (truthy_lookup base, some m) := by
    rw [liberty_attribute_order_indexed base m (Nat.pos_iff_ne_zero.mp hm),
      roundDouble_exact m (le_of_lt (lt_of_lt_of_le hmn hn))]
  have hen : liberty_attribute_order (base ++ '_' :: natDigits n) =
      (truthy_lookup base, some n) := by
    rw [liberty_attribute_order_indexed base n (Nat.pos_iff_ne_zero.mp (by omega)),
      roundDouble_exact n hn]
  rw [hem, hen]
  exact ⟨rfl, rfl, rfl, Or.inr ⟨rfl, hmn⟩⟩

theorem claim3_witness :
    (liberty_attribute_order (sIndex ++ '_' :: natDigits 1)).1 =
      (liberty_attribute_order (sIndex ++ '_' :: natDigits 2)).1 ∧
    (liberty_attribute_order (sIndex ++ '_' :: natDigits 1)).2 = some 1 ∧
    (liberty_attribute_order (sIndex ++ '_' :: natDigits 2)).2 = some 2 ∧
    keyLt (liberty_attribute_order (sIndex ++ '_' :: natDigits 1))
      (liberty_attribute_order (sIndex ++ '_' :: natDigits 2)) :=
  claim3_indexed_order sIndex 1 2 (by decide) (by decide) (by norm_num)

/-! ## C8: lemmas about liberty_join -/

theorem countFI_le (l : List PV) :
    l.countP isFloatV + l.countP isIntV ≤ l.length := by
  induction l with
  | nil => simp
  | cons x rest ih =>
    rw [List.countP_cons, List.countP_cons, List.length_cons]
    cases x <;> simp [isFloatV, isIntV] <;> omega

theorem countFI_eq (l : List PV)
    (h : ∀ x ∈ l, (isFloatV x || isIntV x) = true) :
    l.countP isFloatV + l.countP isIntV = l.length := by
  induction l with
  | nil => simp
  | cons x rest ih =>
    have hx := h x (List.mem_cons_self x rest)
    have ih2 := ih (fun y hy => h y (List.mem_cons_of_mem x hy))
    rw [List.countP_cons, List.countP_cons, List.length_cons]
    cases x <;> simp [isFloatV, isIntV] at hx ⊢ <;> omega

theorem countFI_lt (l : List PV) (x0 : PV) (hx : x0 ∈ l)
    (h : (isFloatV x0 || isIntV x0) = false) :
    l.countP isFloatV + l.countP isIntV < l.length := by
  induction l with
  | nil => cases hx
  | cons x rest ih =>
    rw [List.countP_cons, List.countP_cons, List.length_cons]
    rcases List.mem_cons.mp hx with rfl | hmem
    · have hle := countFI_le rest
      cases x0 <;> simp [isFloatV, isIntV] at h ⊢ <;> omega
    · have hlt := ih hmem
      cases x <;> simp [isFloatV, isIntV] <;> omega

/-- C8: the joiner on a flat sequence: a float present and all elements
numeric gives the float-formatted rendering; a nonempty all-int sequence
gives the plain integer rendering; any sequence containing a non-number is
a fatal error (assertion failure or `ValueError`). -/
theorem claim8_join_homogeneity (l : List PV) :
    ((∃ x ∈ l, isFloatV x = true) →
      (∀ x ∈ l, (isFloatV x || isIntV x) = true) →
      liberty_join_render l = Except.ok (applyJoin JoinMode.floats l)) ∧
    (l ≠ [] → (∀ x ∈ l, isIntV x = true) →
      liberty_join_render l = Except.ok (applyJoin JoinMode.ints l)) ∧
    ((∃ x ∈ l, (isFloatV x || isIntV x) = false) →
      ∃ e, liberty_join_render l = Except.error e) := by
  refine ⟨?_, ?_, ?_⟩
  · intro hex hall
    have hnf : 0 < l.countP isFloatV := List.countP_pos_iff.mpr hex
    have hsum := countFI_eq l hall
    have hj : liberty_join l = Except.ok JoinMode.floats := by
      simp only [liberty_join]
      rw [if_pos hnf, if_pos hsum]
    simp only [liberty_join_render, hj]
  · intro hne hall
    have hnf : l.countP isFloatV = 0 := List.countP_eq_zero.mpr (by
      intro a ha
      have h2 := hall a ha
      cases a <;> simp [isFloatV, isIntV] at h2 ⊢)
    have hni : l.countP isIntV = l.length := List.countP_eq_length.mpr hall
    have hpos : 0 < l.countP isIntV := by
      rw [hni]; exact List.length_pos.mpr hne
    have hj : liberty_join l = Except.ok JoinMode.ints := by
      simp only [liberty_join]
      rw [if_neg (by omega), if_pos hpos, if_pos hni]
    simp only [liberty_join_render, hj]
  · rintro ⟨x0, hx0, hbad⟩
    by_cases hnf : 0 < l.countP isFloatV
    · have hlt := countFI_lt l x0 hx0 hbad
      have hj : liberty_join l = Except.error assertMsg := by
        simp only [liberty_join]
        rw [if_pos hnf, if_neg (by omega)]
      exact ⟨assertMsg, by simp only [liberty_join_render, hj]⟩
    · by_cases hni : 0 < l.countP isIntV
      · have hlt := countFI_lt l x0 hx0 hbad
        have hle := countFI_le l
        have hj : liberty_join l = Except.error assertMsg := by
          simp only [liberty_join]
          rw [if_neg hnf, if_pos hni, if_neg (by omega)]
        exact ⟨assertMsg, by simp only [liberty_join_render, hj]⟩
      · have hj : liberty_join l = Except.error valueMsg := by
          simp only [liberty_join]
          rw [if_neg hnf, if_neg hni]
        exact ⟨valueMsg, by simp only [liberty_join_render, hj]⟩

theorem claim8_witness :
    liberty_join_render [PV.f s15, PV.i 2] =
      Except.ok (applyJoin JoinMode.floats [PV.f s15, PV.i 2]) ∧
    liberty_join_render [PV.i 1, PV.i 2] =
      Except.ok (applyJoin JoinMode.ints [PV.i 1, PV.i 2]) :=
  ⟨(claim8_join_homogeneity [PV.f s15, PV.i 2]).1 (by decide) (by decide),
   (claim8_join_homogeneity [PV.i 1, PV.i 2]).2.1
     (List.cons_ne_nil _ _) (by decide)⟩

/-! ## C10: the nested list renderer checks only the first row -/

theorem renderRows_all_lst (mode : JoinMode) (ind : Nat)
    (rows : List (List PV)) :
    renderRows mode ind (rows.map PV.lst) =
      Except.ok (rows.map (fun r =>
        indentS ind ++ '"' :: (applyJoin mode r ++ "\", \\".data))) := by
  induction rows with
  | nil => rfl
  | cons r rest ih =>
    simp only [List.map_cons, renderRows, renderRow, ih]

/-- C10: for a sequence of rows, the homogeneity check and formatter choice
come from the first row only — rendering succeeds exactly when
`liberty_join` accepts the first row, regardless of later rows; in
particular a later row containing a string (while the first row is all
ints) renders fine although the same row as a flat sequence is a fatal
type error. -/
theorem claim10_first_row_only (k : PyStr) (ind : Nat) (r0 : List PV)
    (rows : List (List PV)) :
    isOkE (liberty_list k (PV.lst r0 :: rows.map PV.lst) ind) =
      isOkE (liberty_join r0) ∧
    isOkE (liberty_list keyX
      [PV.lst [PV.i 1, PV.i 2], PV.lst [PV.i 1, PV.s keyA]] 0) = true ∧
    isOkE (liberty_join [PV.i 1, PV.s keyA]) = false := by
  refine ⟨?_, by decide, by decide⟩
  cases hj : liberty_join r0 with
  | error e => simp only [liberty_list, hj, isOkE]
  | ok mode =>
    have hr := renderRows_all_lst mode (ind + 1) (r0 :: rows)
    rw [List.map_cons] at hr
    simp only [liberty_list, hj, hr, List.map_cons, isOkE]
